import Mathlib

/-!
Shallow embedding of `src/src_dump.py`, a small CLI tool that walks input
directories, filters files by glob ignore masks and an extension allow-list,
and concatenates the selected files (with header banners) into one output
text file whose name is made collision-free by numeric suffixes.

Every definition below is translated from the Python source.  Paths are
modelled as lists of path components; the filesystem seen by the walker is a
finite tree; the set of paths that `os.path.exists` would report for the
output resolver is a finite list of strings; file bytes are lists of `Nat`.
-/

namespace SrcDump

/-! ### Glob matching (`fnmatch.fnmatchcase`)

`fnmatch.fnmatchcase(name, pattern)` performs case-sensitive shell-style
glob matching of the whole name: `*` matches any (possibly empty) sequence,
`?` any single character, `[seq]` a character class (with `!` negation,
a literal `]` allowed as first member, and `a-b` ranges); an unterminated
`[` is treated as a literal character. -/

/-- Split a character-class body at its closing `]`, returning the class
characters and the remainder of the pattern, or `none` if unterminated. -/
def splitAtRBracket : List Char → Option (List Char × List Char)
  | [] => none
  | c :: rest =>
    if c = ']' then some ([], rest)
    else
      match splitAtRBracket rest with
      | some (a, b) => some (c :: a, b)
      | none => none

/-- Parse the body of a `[...]` class (the characters after `[`): returns
(negated?, class characters, rest of pattern after `]`), treating a `]`
directly after `[` or after `[!` as a literal class member, as
`fnmatch.translate` does. -/
def findClass (p : List Char) : Option (Bool × List Char × List Char) :=
  match p with
  | '!' :: ']' :: rest =>
    match splitAtRBracket rest with
    | some (a, b) => some (true, ']' :: a, b)
    | none => none
  | '!' :: rest =>
    match splitAtRBracket rest with
    | some (a, b) => some (true, a, b)
    | none => none
  | ']' :: rest =>
    match splitAtRBracket rest with
    | some (a, b) => some (false, ']' :: a, b)
    | none => none
  | _ =>
    match splitAtRBracket p with
    | some (a, b) => some (false, a, b)
    | none => none

/-- Does character `c` belong to the (already extracted) class body?
`a-b` denotes a range; other characters are literals. -/
def classMatch : List Char → Char → Bool
  | [], _ => false
  | a :: '-' :: b :: rest, c => (decide (a ≤ c) && decide (c ≤ b)) || classMatch rest c
  | a :: rest, c => (a == c) || classMatch rest c

/-- Does pattern `p` match the empty string?  Exactly when it is a
(possibly empty) run of `*`s. -/
def allStars : List Char → Bool
  | [] => true
  | '*' :: p => allStars p
  | _ => false

/-- One matching step against first character `c`: `matchTail q` decides
whether pattern `q` matches the rest of the string. -/
def globStep (matchTail : List Char → Bool) (c : Char) : List Char → Bool
  | [] => false
  | '*' :: p => globStep matchTail c p || matchTail ('*' :: p)
  | '?' :: p => matchTail p
  | '[' :: p =>
    match findClass p with
    | none => (c == '[') && matchTail p
    | some (neg, cls, rest) => (classMatch cls c != neg) && matchTail rest
  | a :: p => (a == c) && matchTail p

/-- Whole-string glob match of pattern `p` against string `s`. -/
def globMatchList : List Char → List Char → Bool
  | [], p => allStars p
  | c :: s, p => globStep (fun q => globMatchList s q) c p

/-- The glob matcher satisfies the textbook backtracking recurrences
(so `globMatchList` is the standard matcher, merely organized so that the
recursion is structural on the string): -/
example (c : Char) (s p : List Char) :
    globMatchList (c :: s) ('*' :: p)
      = (globMatchList (c :: s) p || globMatchList s ('*' :: p)) := rfl
example (p : List Char) : globMatchList [] ('*' :: p) = globMatchList [] p := rfl
example (c : Char) (s p : List Char) :
    globMatchList (c :: s) ('?' :: p) = globMatchList s p := rfl
example (c : Char) (s p : List Char) :
    globMatchList (c :: s) ('a' :: p) = (('a' == c) && globMatchList s p) := rfl

/-- Embeds `fnmatch.fnmatchcase(name, pattern)`. -/
def fnmatchcase (name pattern : String) : Bool :=
  globMatchList name.data pattern.data

/-! ### The configuration constants of `src_dump.py` -/

/-- Supported file extensions to include (line 6 of the source). -/
def FILE_EXTENSIONS : List String :=
  [".cs", ".csproj", ".vue", ".js", ".json", ".iss", ".ini", ".ps1", ".psm1", ".psd1"]

/-- Glob-style folder ignore patterns (line 10). -/
def IGNORED_DIR_MASKS : List String :=
  [".*", "bin", "obj", "dist", "node_modules", "dist-server", "Output", "TwoMachines"]

/-- Glob-style file ignore patterns (lines 11-13). -/
def IGNORED_FILE_MASKS : List String :=
  [".*", "*.tmp", "*.bak", "*.swp", "*.user", "*.suo"]

/-- Embeds `matches_any_mask(name, mask_list)` (lines 37-41): true when the name
matches any of the glob patterns, via `fnmatch.fnmatchcase`. -/
def matches_any_mask (name : String) (mask_list : List String) : Bool :=
  mask_list.any (fun pattern => fnmatchcase name pattern)

example : fnmatchcase "foo.tmp" "*.tmp" = true := by decide
example : fnmatchcase "FOO.TMP" "*.tmp" = false := by decide
example : fnmatchcase ".hidden" ".*" = true := by decide
example : fnmatchcase "bin" "bin" = true := by decide
example : fnmatchcase "b[i]n" "b[h-j]n" = false := by decide
example : fnmatchcase "bin" "b[h-j]n" = true := by decide
example : matches_any_mask "node_modules" IGNORED_DIR_MASKS = true := by decide
example : matches_any_mask "src" IGNORED_DIR_MASKS = false := by decide

/-! ### `os.path.splitext` (POSIX) and the output path resolver

`os.path.splitext(p)` splits `p` into `(root, ext)` where `ext` is the part
of the basename from its last dot on, except that leading dots of the
basename never start an extension.  Paths here are plain strings with `/`
as separator. -/

/-- Index of the last occurrence of `c` in `l`, or `-1` when absent
(mirrors Python's `str.rfind`). -/
def rfindChar (l : List Char) (c : Char) : Int :=
  (List.range l.length).foldl
    (fun acc i => if l.getD i c = c then (i : Int) else acc) (-1)

/-- Embeds `os.path.splitext` for POSIX paths (`sep = '/'`, `extsep = '.'`):
the extension starts at the last `.` that lies after the last `/` and is
preceded (within the basename) by at least one non-dot character. -/
def splitext (p : String) : String × String :=
  let l := p.data
  let sepIndex := rfindChar l '/'
  let dotIndex := rfindChar l '.'
  if sepIndex < dotIndex then
    let between := (l.drop (sepIndex + 1).toNat).take (dotIndex - sepIndex - 1).toNat
    if between.any (fun c => c ≠ '.') then
      (⟨l.take dotIndex.toNat⟩, ⟨l.drop dotIndex.toNat⟩)
    else (p, "")
  else (p, "")

example : splitext "out.txt" = ("out", ".txt") := by decide
example : splitext "out" = ("out", "") := by decide
example : splitext ".hidden" = (".hidden", "") := by decide
example : splitext "a/b.c/d" = ("a/b.c/d", "") := by decide
example : splitext "a.b.c" = ("a.b", ".c") := by decide

/-! #### Decimal rendering of the collision counter

The source builds candidates with the f-string `f"{base}_{counter}{ext}"`;
`str(counter)` is the decimal numeral, i.e. `Nat.repr`.  We prove that this
rendering is injective, which makes the unbounded `while` loop of
`get_unique_output_filename` terminate on every finite filesystem. -/

/-- Decimal digit characters of `n`, most significant first (the value
computed by `Nat.toDigits 10`, without the fuel). -/
def natDigits : Nat → List Char
  | n =>
    if h : n < 10 then [Nat.digitChar n]
    else
      have : n / 10 < n := Nat.div_lt_self (by omega) (by norm_num)
      natDigits (n / 10) ++ [Nat.digitChar (n % 10)]

theorem toDigitsCore_eq_natDigits (fuel n : Nat) (acc : List Char) (h : n < fuel) :
    Nat.toDigitsCore 10 fuel n acc = natDigits n ++ acc := by
  induction fuel generalizing n acc with
  | zero => omega
  | succ fuel ih =>
    show (if n / 10 = 0 then Nat.digitChar (n % 10) :: acc
          else Nat.toDigitsCore 10 fuel (n / 10) (Nat.digitChar (n % 10) :: acc))
        = natDigits n ++ acc
    by_cases h10 : n / 10 = 0
    · have hn : n < 10 := by omega
      rw [if_pos h10, natDigits]
      simp [hn, Nat.mod_eq_of_lt hn]
    · have hn : ¬ n < 10 := fun hlt => h10 (Nat.div_eq_of_lt hlt)
      rw [if_neg h10, ih (n / 10) _ (by omega)]
      conv_rhs => rw [natDigits]
      simp [hn]

/-- Value of a decimal digit character. -/
def digitVal (c : Char) : Nat := c.toNat - '0'.toNat

/-- Value of a big-endian decimal digit string. -/
def valOfDigits (l : List Char) : Nat :=
  l.foldl (fun a c => a * 10 + digitVal c) 0

theorem digitVal_digitChar : ∀ m, m < 10 → digitVal (Nat.digitChar m) = m := by decide

theorem valOfDigits_natDigits (n : Nat) : valOfDigits (natDigits n) = n := by
  induction n using Nat.strong_induction_on with
  | _ n ih =>
    rw [natDigits]
    by_cases h : n < 10
    · simp [h, valOfDigits, digitVal_digitChar n h]
    · have hm : n % 10 < 10 := Nat.mod_lt _ (by norm_num)
      simp only [h, dite_false, valOfDigits, List.foldl_append, List.foldl_cons,
        List.foldl_nil]
      have hdiv : valOfDigits (natDigits (n / 10)) = n / 10 := ih (n / 10) (by omega)
      simp only [valOfDigits] at hdiv
      rw [hdiv, digitVal_digitChar _ hm]
      omega

theorem natRepr_injective {m n : Nat} (h : Nat.repr m = Nat.repr n) : m = n := by
  have hm : Nat.repr m = (natDigits m).asString := by
    show (Nat.toDigitsCore 10 (m + 1) m []).asString = _
    rw [toDigitsCore_eq_natDigits (m + 1) m [] (by omega), List.append_nil]
  have hn : Nat.repr n = (natDigits n).asString := by
    show (Nat.toDigitsCore 10 (n + 1) n []).asString = _
    rw [toDigitsCore_eq_natDigits (n + 1) n [] (by omega), List.append_nil]
  rw [hm, hn] at h
  have hlist : natDigits m = natDigits n := congrArg String.data h
  have := valOfDigits_natDigits m
  rw [hlist, valOfDigits_natDigits] at this
  omega

/-- The collision candidate `f"{base}_{counter}{ext}"` (line 32). -/
def candName (base ext : String) (counter : Nat) : String :=
  base ++ "_" ++ Nat.repr counter ++ ext

theorem candName_injective {b e : String} {m n : Nat}
    (h : candName b e m = candName b e n) : m = n := by
  have hd : (candName b e m).data = (candName b e n).data := congrArg String.data h
  simp only [candName, String.data_append] at hd
  have h1 := List.append_cancel_right hd
  have h2 := List.append_cancel_left h1
  exact natRepr_injective (String.ext h2)

/-- On any finite filesystem some numbered candidate is free: this is why
the `while True` loop of `get_unique_output_filename` terminates. -/
theorem cand_free_exists (existing : List String) (b e : String) :
    ∃ k, candName b e (k + 1) ∉ existing := by
  by_contra hall
  push_neg at hall
  obtain ⟨x, hx, y, hy, hxy, hmap⟩ :=
    Finset.exists_ne_map_eq_of_card_lt_of_maps_to
      (s := Finset.range (existing.length + 1)) (t := existing.toFinset)
      (f := fun k => candName b e (k + 1))
      (by
        have := existing.toFinset_card_le
        simp only [Finset.card_range]
        omega)
      (fun k _ => List.mem_toFinset.mpr (hall k))
  have := candName_injective hmap
  exact hxy (by omega)

/-- Lines 20-22: if the base path has no extension, `.txt` is appended. -/
def withDefaultExt (base_path : String) : String :=
  if (splitext base_path).2 = "" then base_path ++ ".txt" else base_path

/-- Embeds `get_unique_output_filename(base_path)` (lines 15-35).  The set of paths
for which `os.path.exists` answers true is modelled as the finite list
`existing`.  If the base path has no extension, `.txt` is appended; if the
result does not exist it is returned; otherwise counters `1, 2, ...` are
tried, inserting `_<counter>` before the extension, until a non-existent
candidate is found (`Nat.find` returns the least such counter, exactly as
the `while` loop does). -/
def get_unique_output_filename (existing : List String) (base_path : String) : String :=
  let bp := withDefaultExt base_path
  if bp ∈ existing then
    candName (splitext bp).1 (splitext bp).2
      (Nat.find (cand_free_exists existing (splitext bp).1 (splitext bp).2) + 1)
  else bp

/-! ### Permissive UTF-8 decoding

Line 87 opens each file with `encoding='utf-8', errors='ignore'`.  The
decoder below follows CPython's UTF-8 codec: well-formed sequences decode
to their scalar value (overlongs, surrogates and values above `0x10FFFF`
are rejected); each maximal invalid subpart is handed to the error handler,
which contributes `repl` to the output (`[]` for `ignore`, `['�']` for
`replace`) and resumes after the consumed bytes. -/

def utf8DecodeWith (repl : List Char) : List Nat → List Char
  | [] => []
  | b :: rest =>
    if b < 0x80 then Char.ofNat b :: utf8DecodeWith repl rest
    else if 0xC2 ≤ b ∧ b ≤ 0xDF then
      match rest with
      | b1 :: rest1 =>
        if 0x80 ≤ b1 ∧ b1 ≤ 0xBF then
          Char.ofNat ((b - 0xC0) * 0x40 + (b1 - 0x80)) :: utf8DecodeWith repl rest1
        else repl ++ utf8DecodeWith repl (b1 :: rest1)
      | [] => repl
    else if 0xE0 ≤ b ∧ b ≤ 0xEF then
      match rest with
      | b1 :: rest1 =>
        if (if b = 0xE0 then 0xA0 else 0x80) ≤ b1 ∧ b1 ≤ (if b = 0xED then 0x9F else 0xBF) then
          match rest1 with
          | b2 :: rest2 =>
            if 0x80 ≤ b2 ∧ b2 ≤ 0xBF then
              Char.ofNat ((b - 0xE0) * 0x1000 + (b1 - 0x80) * 0x40 + (b2 - 0x80))
                :: utf8DecodeWith repl rest2
            else repl ++ utf8DecodeWith repl (b2 :: rest2)
          | [] => repl
        else repl ++ utf8DecodeWith repl (b1 :: rest1)
      | [] => repl
    else if 0xF0 ≤ b ∧ b ≤ 0xF4 then
      match rest with
      | b1 :: rest1 =>
        if (if b = 0xF0 then 0x90 else 0x80) ≤ b1 ∧ b1 ≤ (if b = 0xF4 then 0x8F else 0xBF) then
          match rest1 with
          | b2 :: rest2 =>
            if 0x80 ≤ b2 ∧ b2 ≤ 0xBF then
              match rest2 with
              | b3 :: rest3 =>
                if 0x80 ≤ b3 ∧ b3 ≤ 0xBF then
                  Char.ofNat ((b - 0xF0) * 0x40000 + (b1 - 0x80) * 0x1000
                      + (b2 - 0x80) * 0x40 + (b3 - 0x80))
                    :: utf8DecodeWith repl rest3
                else repl ++ utf8DecodeWith repl (b3 :: rest3)
              | [] => repl
            else repl ++ utf8DecodeWith repl (b2 :: rest2)
          | [] => repl
        else repl ++ utf8DecodeWith repl (b1 :: rest1)
      | [] => repl
    else repl ++ utf8DecodeWith repl rest

/-- Embeds `bytes.decode('utf-8', errors='ignore')`: invalid subparts are dropped. -/
def decodeIgnore (bytes : List Nat) : String := ⟨utf8DecodeWith [] bytes⟩

/-- Embeds `bytes.decode('utf-8', errors='replace')`: invalid subparts are replaced
by U+FFFD.  (Not what the source does: used to state the spec's claim.) -/
def decodeReplace (bytes : List Nat) : String :=
  ⟨utf8DecodeWith [Char.ofNat 0xFFFD] bytes⟩

/-- Embeds the universal-newline translation that Python's text-mode
`open(..., 'r')` (line 87, `newline` unset) applies to the decoded text:
each `"\r\n"` pair and each remaining lone `"\r"` becomes `"\n"`. -/
def translateNewlines : List Char → List Char
  | [] => []
  | '\r' :: '\n' :: rest => '\n' :: translateNewlines rest
  | '\r' :: rest => '\n' :: translateNewlines rest
  | c :: rest => c :: translateNewlines rest

example : translateNewlines ['A', '\r', '\n', 'B', '\r', 'C'] = ['A', '\n', 'B', '\n', 'C'] :=
  by decide

/-- Lines 87-89 for a readable file with raw content `bytes`: what
`infile.read()` returns and the run writes after the banner — the
permissively decoded (`errors='ignore'`) text, with universal-newline
translation, followed by a newline.  (The output stream itself is
modelled POSIX-style, like the path handling: writing translates no
newlines.) -/
def readFileOutput (bytes : List Nat) : String :=
  ⟨translateNewlines (utf8DecodeWith [] bytes)⟩ ++ "\n"

/-- What C5 as stated asserts lines 87-89 write: the same text-mode read
but with replacement-character substitution (`errors='replace'`) instead
of dropping.  (Not what the source does: used only to state the claim.) -/
def readFileOutputReplaceClaim (bytes : List Nat) : String :=
  ⟨translateNewlines (utf8DecodeWith [Char.ofNat 0xFFFD] bytes)⟩ ++ "\n"

example : readFileOutput [65, 13, 10, 66, 13, 67, 255, 68] = "A\nB\nCD\n" := by decide

/-! ### The filesystem model and the walker -/

mutual
/-- A directory's contents as seen by `os.walk`: files (name and read
result) and named subdirectories, each in enumeration order.  A file's
`Except.ok c` holds the text the run's text-mode read would return
(permissive decode plus universal-newline translation, see
`readFileOutput`); `Except.error e` models `open`/`read` raising an
exception rendered as `e` (lines 93-94). -/
inductive FSTree where
  | node (files : List (String × Except String String)) (subdirs : DirList)
/-- Ordered list of named subdirectories. -/
inductive DirList where
  | nil
  | cons (name : String) (tree : FSTree) (rest : DirList)
end

deriving instance DecidableEq for Except

/-- One output record: the header path components (input-directory basename
followed by the relative path components) and the file's read result. -/
abbrev Item := List String × Except String String

/-- Embeds `str.lower()`: lowercase each character (`Char.toLower` covers the
ASCII range, which is all the extension check needs). -/
def lowerStr (s : String) : String := ⟨s.data.map Char.toLower⟩

/-- Embeds `str.endswith(suffix)`: suffix comparison on the character sequences. -/
def endsWithStr (s ending : String) : Bool := ending.data.isSuffixOf s.data

example : endsWithStr (lowerStr "Main.CS") ".cs" = true := by decide
example : endsWithStr (lowerStr "Main.CS") ".js" = false := by decide

/-- The per-file filter (lines 69-79): skip files matching a file ignore
mask; keep files whose lowercased name ends with an allowed extension; the
header path is the enclosing directory's path components plus the
filename. -/
def fileItem (rel : List String) (f : String × Except String String) : Option Item :=
  if matches_any_mask f.1 IGNORED_FILE_MASKS then none
  else if FILE_EXTENSIONS.any (fun ext => endsWithStr (lowerStr f.1) ext) then
    some (rel ++ [f.1], f.2)
  else none

mutual
/-- Embeds `os.walk(input_dir, topdown=True)` with the per-directory body of
lines 60-94: process the current directory's files in order, then visit
the subdirectories, skipping — before descending — any whose name matches
a directory ignore mask (the `dirs[:] = [...]` pruning of lines 63-66). -/
def walkTree : FSTree → List String → List Item
  | FSTree.node files subdirs, rel =>
    files.filterMap (fileItem rel) ++ walkDirs subdirs rel
/-- Visit pruned subdirectories in order. -/
def walkDirs : DirList → List String → List Item
  | DirList.nil, _ => []
  | DirList.cons name t rest, rel =>
    if matches_any_mask name IGNORED_DIR_MASKS then walkDirs rest rel
    else walkTree t (rel ++ [name]) ++ walkDirs rest rel
end

/-- The separator line `'//' + '=' * 80` (lines 82 and 84). -/
def sepLine : String := "//" ++ ⟨List.replicate 80 '='⟩

/-- The text written for one record (lines 81-94): a blank line, the
separator, the `// File:` line (path components joined by `/`), the
separator, a blank line; then the decoded content plus a newline, or the
inline marker written when reading raised `e`. -/
def renderItem (it : Item) : String :=
  "\n" ++ sepLine ++ "\n" ++ "// File: " ++ String.intercalate "/" it.1 ++ "\n"
    ++ sepLine ++ "\n" ++ "\n"
    ++ (match it.2 with
        | Except.ok content => content ++ "\n"
        | Except.error e => "// Error reading file: " ++ e ++ "\n")

/-- One CLI input directory: its basename and, when `os.path.isdir` holds,
its tree; `none` models an invalid directory, skipped with a warning
(lines 55-57). -/
abbrev InputDir := String × Option FSTree

/-- Records produced for one input directory: the walk is rooted at the
directory itself (never filtered), and header paths start with its
basename (line 78). -/
def processInput : InputDir → List Item
  | (name, some t) => walkTree t [name]
  | (_, none) => []

/-- All records produced by a run, input directories in order. -/
def runItems (inputs : List InputDir) : List Item :=
  (inputs.map processInput).flatten

/-- The full text written to the output file by a completed run. -/
def dumpContent (inputs : List InputDir) : String :=
  String.join ((runItems inputs).map renderItem)

/-- The found-files flag at the end of a completed run (lines 51 and 74):
set exactly when some record was produced. -/
def found_files (inputs : List InputDir) : Bool :=
  !(runItems inputs).isEmpty

/-- Observable final state of `collect_cs_files`. -/
structure FinalState where
  removed : Bool
  exitCode : Nat
  messages : List String
deriving DecidableEq

/-- Lines 95-109.  `outcome = some e` models an unexpected exception `e`
escaping the `with` block (caught at line 95); `none` models normal
completion.  `outputExists` is `os.path.exists(output_file)` at that point
(true unless the file was removed externally, since `open(..., 'w')`
created it). -/
def finishRun (found : Bool) (outputExists : Bool) (outcome : Option String)
    (output_file : String) : FinalState :=
  match outcome with
  | some e =>
    { removed := !found && outputExists
      exitCode := 1
      messages := ["\nAn unexpected error occurred: " ++ e] }
  | none =>
    if !found then
      { removed := outputExists
        exitCode := 0
        messages := ["\nWarning: No matching files were found to process."]
          ++ (if outputExists then ["Removed empty output file: " ++ output_file] else []) }
    else
      { removed := false
        exitCode := 0
        messages := ["\nDone. Output successfully written to " ++ output_file] }

/-- The found-files flag after the first `k` records of an interrupted run:
the flag is set (line 74) before the file's banner is written or its
content read. -/
def foundAfter (items : List Item) (k : Nat) : Bool := !(items.take k).isEmpty

/-- The output-file content after the first `k` records of an interrupted
run. -/
def contentAfter (items : List Item) (k : Nat) : String :=
  String.join ((items.take k).map renderItem)

/-- A complete successful run: the resolved output path (depending on the
paths existing on disk) and the dump content (depending only on the input
trees). -/
def runProgram (existing : List String) (inputs : List InputDir)
    (output_file_base : String) : String × String :=
  (get_unique_output_filename existing output_file_base, dumpContent inputs)

/-! ### Lookup functions and well-formedness of the filesystem model -/

/-- Names of the subdirectories of a directory, in order. -/
def dirNames : DirList → List String
  | DirList.nil => []
  | DirList.cons n _ rest => n :: dirNames rest

/-- The first subdirectory with the given name, if any. -/
def lookupSubdir : DirList → String → Option FSTree
  | DirList.nil, _ => none
  | DirList.cons n t rest, d => if n = d then some t else lookupSubdir rest d

/-- The read result of the first file with the given name, if any. -/
def lookupFile (files : List (String × Except String String)) (fname : String) :
    Option (Except String String) :=
  (files.find? (fun f => f.1 == fname)).map Prod.snd

/-- The read result of the file reached from `t` by descending through the
directory components `q` and then taking file `fname`. -/
def fileDataAt : FSTree → List String → String → Option (Except String String)
  | FSTree.node files _, [], fname => lookupFile files fname
  | FSTree.node _ subdirs, d :: q, fname =>
    match lookupSubdir subdirs d with
    | some t => fileDataAt t q fname
    | none => none

mutual
/-- Filesystem well-formedness: inside any one directory, file names are
distinct and subdirectory names are distinct (true of every real
filesystem; files and subdirectories are modelled in separate lists, so no
constraint between the two is needed). -/
def wfTree : FSTree → Prop
  | FSTree.node files subdirs =>
    (files.map Prod.fst).Nodup ∧ (dirNames subdirs).Nodup ∧ wfDirs subdirs
/-- All subdirectory trees are well-formed. -/
def wfDirs : DirList → Prop
  | DirList.nil => True
  | DirList.cons _ t rest => wfTree t ∧ wfDirs rest
end

/-- The Boolean condition of line 73: the lowercased name ends with an
allowed extension. -/
def extAllowed (fname : String) : Bool :=
  FILE_EXTENSIONS.any (fun ext => endsWithStr (lowerStr fname) ext)

theorem fileItem_eq_some_iff {rel : List String} {f : String × Except String String}
    {it : Item} :
    fileItem rel f = some it ↔
      matches_any_mask f.1 IGNORED_FILE_MASKS = false ∧ extAllowed f.1 = true ∧
        it = (rel ++ [f.1], f.2) := by
  unfold fileItem extAllowed
  by_cases h1 : matches_any_mask f.1 IGNORED_FILE_MASKS
  · simp [h1]
  · by_cases h2 : FILE_EXTENSIONS.any (fun ext => endsWithStr (lowerStr f.1) ext)
    · simp [h1, h2, eq_comm]
    · simp [h1, h2]

theorem fileItem_eq_none_of_mask {rel : List String} {f : String × Except String String}
    (h : matches_any_mask f.1 IGNORED_FILE_MASKS = true) : fileItem rel f = none := by
  unfold fileItem
  simp [h]

theorem walkDirs_cons_ignored {name : String} {t : FSTree} {rest : DirList}
    {rel : List String} (h : matches_any_mask name IGNORED_DIR_MASKS = true) :
    walkDirs (DirList.cons name t rest) rel = walkDirs rest rel := by
  rw [walkDirs, if_pos h]

theorem walkDirs_cons_kept {name : String} {t : FSTree} {rest : DirList}
    {rel : List String} (h : matches_any_mask name IGNORED_DIR_MASKS = false) :
    walkDirs (DirList.cons name t rest) rel
      = walkTree t (rel ++ [name]) ++ walkDirs rest rel := by
  rw [walkDirs, if_neg (by simp [h])]

mutual
/-- Every record emitted below `rel` extends `rel` by a (possibly empty)
chain of directory names that all fail the directory ignore masks, and a
filename that passed the file filter. -/
theorem walkTree_shape : ∀ (t : FSTree) (rel : List String), ∀ it ∈ walkTree t rel,
    ∃ q f, it.1 = rel ++ q ++ [f] ∧
      (∀ d ∈ q, matches_any_mask d IGNORED_DIR_MASKS = false) ∧
      matches_any_mask f IGNORED_FILE_MASKS = false ∧ extAllowed f = true
  | FSTree.node files subdirs, rel => by
    intro it hit
    rw [walkTree] at hit
    rcases List.mem_append.mp hit with hfi | hdi
    · obtain ⟨f, _, hsome⟩ := List.mem_filterMap.mp hfi
      obtain ⟨hmask, hext, hval⟩ := fileItem_eq_some_iff.mp hsome
      exact ⟨[], f.1, by simp [hval], by simp, hmask, hext⟩
    · obtain ⟨d, q, f, h1, _, h3, h4, h5, h6⟩ := walkDirs_shape subdirs rel it hdi
      exact ⟨d :: q, f, by simp [h1], by
        intro x hx
        rcases List.mem_cons.mp hx with rfl | hx
        · exact h3
        · exact h4 x hx, h5, h6⟩
/-- Records emitted by `walkDirs` descend through a subdirectory whose name
is in the list and fails the directory ignore masks. -/
theorem walkDirs_shape : ∀ (dl : DirList) (rel : List String), ∀ it ∈ walkDirs dl rel,
    ∃ d q f, it.1 = rel ++ [d] ++ q ++ [f] ∧ d ∈ dirNames dl ∧
      matches_any_mask d IGNORED_DIR_MASKS = false ∧
      (∀ x ∈ q, matches_any_mask x IGNORED_DIR_MASKS = false) ∧
      matches_any_mask f IGNORED_FILE_MASKS = false ∧ extAllowed f = true
  | DirList.nil, rel => by
    intro it hit
    rw [walkDirs] at hit
    exact absurd hit (List.not_mem_nil it)
  | DirList.cons name t rest, rel => by
    intro it hit
    rw [walkDirs] at hit
    by_cases hm : matches_any_mask name IGNORED_DIR_MASKS
    · rw [if_pos hm] at hit
      obtain ⟨d, q, f, h1, h2, h3, h4, h5, h6⟩ := walkDirs_shape rest rel it hit
      exact ⟨d, q, f, h1, by simp [dirNames, h2], h3, h4, h5, h6⟩
    · rw [if_neg hm] at hit
      rcases List.mem_append.mp hit with hin | hin
      · obtain ⟨q, f, h1, h2, h5, h6⟩ := walkTree_shape t (rel ++ [name]) it hin
        exact ⟨name, q, f, by simp [h1], by simp [dirNames],
          Bool.eq_false_iff.mpr hm, h2, h5, h6⟩
      · obtain ⟨d, q, f, h1, h2, h3, h4, h5, h6⟩ := walkDirs_shape rest rel it hin
        exact ⟨d, q, f, h1, by simp [dirNames, h2], h3, h4, h5, h6⟩
end

/-- The header paths of the records from one directory's file list. -/
theorem map_fst_filterMap_fileItem (rel : List String)
    (files : List (String × Except String String)) :
    (files.filterMap (fileItem rel)).map Prod.fst
      = (files.filter (fun f =>
            !matches_any_mask f.1 IGNORED_FILE_MASKS && extAllowed f.1)).map
          (fun f => rel ++ [f.1]) := by
  induction files with
  | nil => rfl
  | cons f fs ih =>
    by_cases h1 : matches_any_mask f.1 IGNORED_FILE_MASKS
    · rw [List.filterMap_cons, fileItem_eq_none_of_mask h1, List.filter_cons]
      simp [h1, ih]
    · by_cases h2 : extAllowed f.1
      · have : fileItem rel f = some (rel ++ [f.1], f.2) :=
          fileItem_eq_some_iff.mpr ⟨Bool.eq_false_iff.mpr h1, h2, rfl⟩
        rw [List.filterMap_cons, this, List.filter_cons]
        simp [h1, h2, ih]
      · have : fileItem rel f = none := by
          unfold fileItem extAllowed at *
          simp only [Bool.eq_false_iff.mpr h1, Bool.false_eq_true, if_false]
          simp only [Bool.not_eq_true] at h2
          rw [h2]
          rfl
        rw [List.filterMap_cons, this, List.filter_cons]
        simp [h1, h2, ih]

mutual
/-- A file reached by non-ignored directory components and passing the file
filter contributes a record with the corresponding header path. -/
theorem mem_walkTree_of_fileDataAt : ∀ (t : FSTree) (rel q : List String)
    (fname : String) (data : Except String String),
    fileDataAt t q fname = some data →
    (∀ d ∈ q, matches_any_mask d IGNORED_DIR_MASKS = false) →
    matches_any_mask fname IGNORED_FILE_MASKS = false →
    extAllowed fname = true →
    (rel ++ q ++ [fname], data) ∈ walkTree t rel
  | FSTree.node files subdirs, rel, [], fname, data => by
    intro hlook _ hmask hext
    rw [walkTree]
    apply List.mem_append_left
    unfold fileDataAt lookupFile at hlook
    obtain ⟨f, hfind, hdata⟩ : ∃ f, files.find? (fun f => f.1 == fname) = some f ∧
        f.2 = data := by
      cases hf : files.find? (fun f => f.1 == fname) with
      | none => rw [hf] at hlook; simp at hlook
      | some f =>
        rw [hf] at hlook
        simp only [Option.map_some', Option.some.injEq] at hlook
        exact ⟨f, rfl, hlook⟩
    have hname : f.1 = fname := by
      have := List.find?_some hfind
      simpa using this
    refine List.mem_filterMap.mpr ⟨f, List.mem_of_find?_eq_some hfind, ?_⟩
    rw [fileItem_eq_some_iff]
    exact ⟨by rw [hname]; exact hmask, by rw [hname]; exact hext,
      by rw [hname, hdata]; simp⟩
  | FSTree.node files subdirs, rel, d :: q, fname, data => by
    intro hlook hdirs hmask hext
    rw [walkTree]
    apply List.mem_append_right
    unfold fileDataAt at hlook
    cases hsub : lookupSubdir subdirs d with
    | none => rw [hsub] at hlook; exact absurd hlook (by simp)
    | some t' =>
      rw [hsub] at hlook
      have hd : matches_any_mask d IGNORED_DIR_MASKS = false := hdirs d (by simp)
      have hmem := mem_walkTree_of_fileDataAt t' (rel ++ [d]) q fname data hlook
        (fun x hx => hdirs x (by simp [hx])) hmask hext
      have := mem_walkDirs_of_lookupSubdir subdirs rel d t' hsub hd _ hmem
      simpa using this
/-- Records of a looked-up, non-ignored subdirectory survive into
`walkDirs`. -/
theorem mem_walkDirs_of_lookupSubdir : ∀ (dl : DirList) (rel : List String)
    (d : String) (t' : FSTree),
    lookupSubdir dl d = some t' →
    matches_any_mask d IGNORED_DIR_MASKS = false →
    ∀ it ∈ walkTree t' (rel ++ [d]), it ∈ walkDirs dl rel
  | DirList.nil, rel, d, t' => by
    intro h
    exact absurd h (by rw [lookupSubdir]; simp)
  | DirList.cons n t rest, rel, d, t' => by
    intro hlook hd it hit
    rw [lookupSubdir] at hlook
    by_cases hnd : n = d
    · rw [if_pos hnd] at hlook
      obtain rfl : t = t' := by simpa using hlook
      subst hnd
      rw [walkDirs_cons_kept hd]
      exact List.mem_append_left _ hit
    · rw [if_neg hnd] at hlook
      have hrec := mem_walkDirs_of_lookupSubdir rest rel d t' hlook hd it hit
      by_cases hm : matches_any_mask n IGNORED_DIR_MASKS
      · rwa [walkDirs_cons_ignored hm]
      · rw [walkDirs_cons_kept (Bool.eq_false_iff.mpr hm)]
        exact List.mem_append_right _ hrec
end

theorem nodup_paths_of_files {rel : List String}
    {files : List (String × Except String String)}
    (h : (files.map Prod.fst).Nodup) :
    ((files.filterMap (fileItem rel)).map Prod.fst).Nodup := by
  rw [map_fst_filterMap_fileItem]
  have hinj : Function.Injective (fun n : String => rel ++ [n]) := by
    intro a b hab
    simpa using List.append_cancel_left hab
  have hsub : ((files.filter (fun f =>
        !matches_any_mask f.1 IGNORED_FILE_MASKS && extAllowed f.1)).map
          Prod.fst).Sublist (files.map Prod.fst) :=
    (List.filter_sublist files).map Prod.fst
  have hnd := (hsub.nodup h).map hinj
  have hcomp : ((fun n : String => rel ++ [n]) ∘ Prod.fst)
      = fun f : String × Except String String => rel ++ [f.1] := rfl
  rw [List.map_map, hcomp] at hnd
  exact hnd

mutual
/-- In a well-formed filesystem the emitted header paths are pairwise
distinct: each selected file produces exactly one record. -/
theorem walkTree_paths_nodup : ∀ (t : FSTree) (rel : List String), wfTree t →
    ((walkTree t rel).map Prod.fst).Nodup
  | FSTree.node files subdirs, rel => by
    intro hwf
    rw [wfTree] at hwf
    obtain ⟨hf, hd, hwd⟩ := hwf
    rw [walkTree, List.map_append]
    refine List.Nodup.append (nodup_paths_of_files hf)
      (walkDirs_paths_nodup subdirs rel hwd hd) ?_
    intro P hP1 hP2
    rw [map_fst_filterMap_fileItem] at hP1
    obtain ⟨f, _, hPf⟩ := List.mem_map.mp hP1
    obtain ⟨it, hit, hfst⟩ := List.mem_map.mp hP2
    obtain ⟨d, q, g, h1, _, _, _, _, _⟩ := walkDirs_shape subdirs rel it hit
    have heq : rel ++ [d] ++ q ++ [g] = rel ++ [f.1] := by
      rw [← h1, hfst, ← hPf]
    have hlen := congrArg List.length heq
    simp at hlen
/-- Emitted header paths of the subdirectory walk are pairwise distinct. -/
theorem walkDirs_paths_nodup : ∀ (dl : DirList) (rel : List String), wfDirs dl →
    (dirNames dl).Nodup → ((walkDirs dl rel).map Prod.fst).Nodup
  | DirList.nil, rel => by
    intro _ _
    rw [walkDirs]
    simp
  | DirList.cons n t rest, rel => by
    intro hwd hnames
    rw [wfDirs] at hwd
    obtain ⟨hwt, hwrest⟩ := hwd
    rw [dirNames] at hnames
    have hnames' := List.nodup_cons.mp hnames
    by_cases hm : matches_any_mask n IGNORED_DIR_MASKS
    · rw [walkDirs_cons_ignored hm]
      exact walkDirs_paths_nodup rest rel hwrest hnames'.2
    · rw [walkDirs_cons_kept (Bool.eq_false_iff.mpr hm), List.map_append]
      refine List.Nodup.append (walkTree_paths_nodup t (rel ++ [n]) hwt)
        (walkDirs_paths_nodup rest rel hwrest hnames'.2) ?_
      intro P hP1 hP2
      obtain ⟨it1, hit1, hfst1⟩ := List.mem_map.mp hP1
      obtain ⟨q1, f1, e1, _, _, _⟩ := walkTree_shape t (rel ++ [n]) it1 hit1
      obtain ⟨it2, hit2, hfst2⟩ := List.mem_map.mp hP2
      obtain ⟨d2, q2, f2, e2, hd2, _, _, _, _⟩ := walkDirs_shape rest rel it2 hit2
      have heq : rel ++ ([n] ++ (q1 ++ [f1])) = rel ++ ([d2] ++ (q2 ++ [f2])) := by
        have h1 : P = rel ++ [n] ++ q1 ++ [f1] := by rw [← e1, hfst1]
        have h2 : P = rel ++ [d2] ++ q2 ++ [f2] := by rw [← e2, hfst2]
        rw [← List.append_assoc, ← List.append_assoc, ← List.append_assoc,
          ← List.append_assoc, ← h1, ← h2]
      have hnd2 : n = d2 := (List.cons.injEq _ _ _ _).mp
        (List.append_cancel_left heq) |>.1
      exact hnames'.1 (hnd2 ▸ hd2)
end

/-! ### Properties of the output path resolver -/

theorem get_unique_not_mem (existing : List String) (base_path : String) :
    get_unique_output_filename existing base_path ∉ existing := by
  rw [get_unique_output_filename]
  by_cases h : withDefaultExt base_path ∈ existing
  · simp only [h, if_true]
    exact Nat.find_spec (cand_free_exists existing _ _)
  · simp only [h, if_false]
    exact not_false

theorem get_unique_of_not_mem {existing : List String} {base_path : String}
    (h : withDefaultExt base_path ∉ existing) :
    get_unique_output_filename existing base_path = withDefaultExt base_path := by
  rw [get_unique_output_filename]
  simp only [h, if_false]

theorem get_unique_of_mem {existing : List String} {base_path : String}
    (h : withDefaultExt base_path ∈ existing) :
    ∃ n, 1 ≤ n ∧
      get_unique_output_filename existing base_path
        = candName (splitext (withDefaultExt base_path)).1
            (splitext (withDefaultExt base_path)).2 n ∧
      (∀ m, 1 ≤ m → m < n →
        candName (splitext (withDefaultExt base_path)).1
          (splitext (withDefaultExt base_path)).2 m ∈ existing) := by
  rw [get_unique_output_filename]
  simp only [h, if_true]
  refine ⟨Nat.find (cand_free_exists existing _ _) + 1, by omega, rfl, ?_⟩
  intro m h1 h2
  have := Nat.find_min (cand_free_exists existing (splitext (withDefaultExt base_path)).1
    (splitext (withDefaultExt base_path)).2) (m := m - 1) (by omega)
  simp only [not_not] at this
  have hm : m - 1 + 1 = m := by omega
  rwa [hm] at this

/-! ### The claims -/

/-- C1: for every directory whose basename matches a directory ignore mask,
the walker prunes it before descending: a tree containing such a
subdirectory produces exactly the records of the tree without it — whatever
the subtree contains, no file under that directory appears in the output,
even files whose names match the allowed extensions.  Moreover every
emitted header path descends only through directories that fail every
directory ignore mask. -/
theorem claim_C1 (d : String) (t : FSTree)
    (files : List (String × Except String String)) (rest : DirList)
    (rel : List String)
    (h : matches_any_mask d IGNORED_DIR_MASKS = true) :
    walkTree (FSTree.node files (DirList.cons d t rest)) rel
        = walkTree (FSTree.node files rest) rel ∧
    (∀ t0 : FSTree, ∀ rel0 : List String, ∀ it ∈ walkTree t0 rel0, ∃ q f,
        it.1 = rel0 ++ q ++ [f] ∧
        ∀ x ∈ q, matches_any_mask x IGNORED_DIR_MASKS = false) := by
  constructor
  · rw [walkTree, walkTree, walkDirs_cons_ignored h]
  · intro t0 rel0 it hit
    obtain ⟨q, f, h1, h2, _, _⟩ := walkTree_shape t0 rel0 it hit
    exact ⟨q, f, h1, h2⟩

theorem claim_C1_witness :
    matches_any_mask "bin" IGNORED_DIR_MASKS = true ∧
    walkTree (FSTree.node [] (DirList.cons "bin"
        (FSTree.node [("x.cs", Except.ok "1")] DirList.nil) DirList.nil)) ["inp"]
      = walkTree (FSTree.node [] DirList.nil) ["inp"] :=
  ⟨by decide,
    (claim_C1 "bin" (FSTree.node [("x.cs", Except.ok "1")] DirList.nil) []
      DirList.nil ["inp"] (by decide)).1⟩

/-- C7: a filename matching a file ignore mask is excluded regardless of
its extension — its per-file record is `none` (the mask test at line 70
runs before the extension test at line 73, and no later test can
resurrect the file), so removing the file from a directory leaves the walk
output unchanged. -/
theorem claim_C7 (rel : List String) (name : String) (data : Except String String)
    (fs1 fs2 : List (String × Except String String)) (sd : DirList)
    (h : matches_any_mask name IGNORED_FILE_MASKS = true) :
    fileItem rel (name, data) = none ∧
    walkTree (FSTree.node (fs1 ++ (name, data) :: fs2) sd) rel
      = walkTree (FSTree.node (fs1 ++ fs2) sd) rel := by
  refine ⟨fileItem_eq_none_of_mask h, ?_⟩
  rw [walkTree, walkTree, List.filterMap_append, List.filterMap_append,
    List.filterMap_cons, fileItem_eq_none_of_mask h]

theorem claim_C7_witness :
    matches_any_mask ".hidden.cs" IGNORED_FILE_MASKS = true ∧
    extAllowed ".hidden.cs" = true ∧
    fileItem ["inp"] (".hidden.cs", Except.ok "x") = none :=
  ⟨by decide, by decide,
    (claim_C7 ["inp"] ".hidden.cs" (Except.ok "x") [] [] DirList.nil (by decide)).1⟩

/-- C9: the directory ignore masks are never applied to an input directory
itself, only to subdirectories met during the walk: an input directory
whose basename matches an ignore mask is still fully processed (an
eligible top-level file of it appears in the records), whereas a
subdirectory of the same name would be pruned wherever it occurred. -/
theorem claim_C9 (name : String) (files : List (String × Except String String))
    (sd : DirList) (fname : String) (data : Except String String)
    (hmask : matches_any_mask name IGNORED_DIR_MASKS = true)
    (hmem : (fname, data) ∈ files)
    (hfile : matches_any_mask fname IGNORED_FILE_MASKS = false)
    (hext : extAllowed fname = true) :
    ([name, fname], data) ∈ processInput (name, some (FSTree.node files sd)) ∧
    (∀ rest : DirList, ∀ rel : List String,
      walkDirs (DirList.cons name (FSTree.node files sd) rest) rel
        = walkDirs rest rel) := by
  constructor
  · show ([name, fname], data) ∈ walkTree (FSTree.node files sd) [name]
    rw [walkTree]
    apply List.mem_append_left
    refine List.mem_filterMap.mpr ⟨(fname, data), hmem, ?_⟩
    rw [fileItem_eq_some_iff]
    exact ⟨hfile, hext, by simp⟩
  · intro rest rel
    exact walkDirs_cons_ignored hmask

theorem claim_C9_witness :
    matches_any_mask "bin" IGNORED_DIR_MASKS = true ∧
    (["bin", "a.cs"], Except.ok "x") ∈ processInput
      ("bin", some (FSTree.node [("a.cs", Except.ok "x")] DirList.nil)) :=
  ⟨by decide,
    (claim_C9 "bin" [("a.cs", Except.ok "x")] DirList.nil "a.cs" (Except.ok "x")
      (by decide) (by simp) (by decide) (by decide)).1⟩

/-- C4: when an unexpected exception interrupts the run after `k` records,
the program exits with a non-zero status, deletes the output file exactly
when no matching file had been found yet (in which case the content
written so far is empty), and keeps the partial output file whenever at
least one record had been written. -/
theorem claim_C4 (items : List Item) (k : Nat) (e output_file : String) :
    (finishRun (foundAfter items k) true (some e) output_file).exitCode ≠ 0 ∧
    ((finishRun (foundAfter items k) true (some e) output_file).removed = true
        ↔ foundAfter items k = false) ∧
    (foundAfter items k = false → contentAfter items k = "") ∧
    (foundAfter items k = true →
      (finishRun (foundAfter items k) true (some e) output_file).removed
        = false) := by
  refine ⟨by simp [finishRun], ?_, ?_, ?_⟩
  · cases h : foundAfter items k <;> simp [finishRun, h]
  · intro h
    have : items.take k = [] := by simpa [foundAfter] using h
    simp [contentAfter, this]
    rfl
  · intro h
    simp [finishRun, h]

theorem claim_C4_witness :
    (finishRun (foundAfter [((["i", "a.cs"] : List String), Except.ok "x")] 0)
        true (some "disk full") "o.txt").removed = true ∧
    (finishRun (foundAfter [((["i", "a.cs"] : List String), Except.ok "x")] 1)
        true (some "disk full") "o.txt").removed = false ∧
    (finishRun (foundAfter [((["i", "a.cs"] : List String), Except.ok "x")] 0)
        true (some "disk full") "o.txt").exitCode ≠ 0 :=
  ⟨(claim_C4 [((["i", "a.cs"] : List String), Except.ok "x")] 0 "disk full"
      "o.txt").2.1.mpr (by decide),
    (claim_C4 [((["i", "a.cs"] : List String), Except.ok "x")] 1 "disk full"
      "o.txt").2.2.2 (by decide),
    (claim_C4 [((["i", "a.cs"] : List String), Except.ok "x")] 0 "disk full"
      "o.txt").1⟩

/-- C6: on normal completion with zero matching files found across all
input directories, the output file (whose content is necessarily empty) is
deleted, a warning is printed, and the exit code is 0 (not an error
exit). -/
theorem claim_C6 (inputs : List InputDir) (output_file : String)
    (h : runItems inputs = []) :
    found_files inputs = false ∧
    dumpContent inputs = "" ∧
    finishRun (found_files inputs) true none output_file
      = { removed := true, exitCode := 0,
          messages := ["\nWarning: No matching files were found to process.",
            "Removed empty output file: " ++ output_file] } := by
  have hf : found_files inputs = false := by simp [found_files, h]
  refine ⟨hf, ?_, ?_⟩
  · simp [dumpContent, h]
    rfl
  · rw [hf]
    simp [finishRun]

theorem claim_C6_witness :
    runItems [("gone", none)] = [] ∧
    finishRun (found_files [("gone", none)]) true none "out.txt"
      = { removed := true, exitCode := 0,
          messages := ["\nWarning: No matching files were found to process.",
            "Removed empty output file: out.txt"] } :=
  ⟨by decide, (claim_C6 [("gone", none)] "out.txt" (by decide)).2.2⟩

/-- C10: the found-files flag is set (line 74) before a file's content is
read, and an eligible file whose read fails still produces a record with
the inline error marker; hence a run in which every record is a read
failure still counts as found: the output file (containing only banners
and inline error markers) is kept, the success message is printed, and the
exit code is 0 — not the empty-cleanup path. -/
theorem claim_C10 (inputs : List InputDir) (output_file : String)
    (hne : runItems inputs ≠ [])
    (herr : ∀ it ∈ runItems inputs, ∃ e, it.2 = Except.error e) :
    found_files inputs = true ∧
    (finishRun (found_files inputs) true none output_file).removed = false ∧
    (finishRun (found_files inputs) true none output_file).exitCode = 0 ∧
    (finishRun (found_files inputs) true none output_file).messages
      = ["\nDone. Output successfully written to " ++ output_file] ∧
    (∀ rel name e, matches_any_mask name IGNORED_FILE_MASKS = false →
      extAllowed name = true →
      fileItem rel (name, Except.error e) = some (rel ++ [name], Except.error e)) ∧
    (∀ it ∈ runItems inputs, ∃ e, renderItem it
      = ("\n" ++ sepLine ++ "\n" ++ "// File: " ++ String.intercalate "/" it.1
          ++ "\n" ++ sepLine ++ "\n" ++ "\n")
        ++ ("// Error reading file: " ++ e ++ "\n")) := by
  have hf : found_files inputs = true := by
    simp [found_files]
    exact hne
  refine ⟨hf, by rw [hf]; simp [finishRun], by rw [hf]; simp [finishRun],
    by rw [hf]; simp [finishRun], ?_, ?_⟩
  · intro rel name e hm hx
    rw [fileItem_eq_some_iff]
    exact ⟨hm, hx, rfl⟩
  · intro it hit
    obtain ⟨e, he⟩ := herr it hit
    exact ⟨e, by rw [renderItem, he]⟩

theorem claim_C10_witness :
    runItems [("i", some (FSTree.node [("a.cs", Except.error "boom")] DirList.nil))]
        ≠ [] ∧
    found_files [("i", some (FSTree.node [("a.cs", Except.error "boom")] DirList.nil))]
        = true ∧
    (finishRun (found_files
        [("i", some (FSTree.node [("a.cs", Except.error "boom")] DirList.nil))])
        true none "o.txt").removed = false := by
  have hrun : runItems
      [("i", some (FSTree.node [("a.cs", Except.error "boom")] DirList.nil))]
      = [(["i", "a.cs"], Except.error "boom")] := by
    simp only [runItems, processInput, walkTree, walkDirs, List.map, List.flatten]
    decide
  have hne : runItems
      [("i", some (FSTree.node [("a.cs", Except.error "boom")] DirList.nil))] ≠ [] := by
    rw [hrun]
    decide
  have h := claim_C10 _ "o.txt" hne (by
    rw [hrun]
    intro it hit
    simp at hit
    exact ⟨"boom", by rw [hit]⟩)
  exact ⟨hne, h.1, h.2.1⟩

/-- C2: the output path resolver first appends `.txt` exactly when the base
has no extension; if the resulting path does not exist it is returned
unchanged; otherwise the candidate `_<n>` (counter inserted before the
extension) with the lowest counter `n ≥ 1` that does not exist is
returned; the returned path never exists at resolution time. -/
theorem claim_C2 (existing : List String) (base_path : String) :
    ((splitext base_path).2 = "" → withDefaultExt base_path = base_path ++ ".txt") ∧
    ((splitext base_path).2 ≠ "" → withDefaultExt base_path = base_path) ∧
    get_unique_output_filename existing base_path ∉ existing ∧
    (withDefaultExt base_path ∉ existing →
      get_unique_output_filename existing base_path = withDefaultExt base_path) ∧
    (withDefaultExt base_path ∈ existing →
      ∃ n, 1 ≤ n ∧
        get_unique_output_filename existing base_path
          = candName (splitext (withDefaultExt base_path)).1
              (splitext (withDefaultExt base_path)).2 n ∧
        ∀ m, 1 ≤ m → m < n →
          candName (splitext (withDefaultExt base_path)).1
            (splitext (withDefaultExt base_path)).2 m ∈ existing) :=
  ⟨fun h => by rw [withDefaultExt, if_pos h],
    fun h => by rw [withDefaultExt, if_neg h],
    get_unique_not_mem existing base_path,
    fun h => get_unique_of_not_mem h,
    fun h => get_unique_of_mem h⟩

theorem claim_C2_witness :
    get_unique_output_filename ["out.txt"] "out" ∉ ["out.txt"] ∧
    get_unique_output_filename [] "out" = "out.txt" ∧
    get_unique_output_filename ["out.txt"] "out" = "out_1.txt" := by
  refine ⟨(claim_C2 ["out.txt"] "out").2.2.1, ?_, ?_⟩
  · have h := (claim_C2 [] "out").2.2.2.1 (by simp)
    rw [h]
    decide
  · obtain ⟨n, hn1, hr, hmin⟩ := (claim_C2 ["out.txt"] "out").2.2.2.2 (by decide)
    have hn : n = 1 := by
      by_contra hne
      have h2 : 1 < n := by omega
      have := hmin 1 (by omega) h2
      revert this
      decide
    rw [hr, hn]
    decide

/-- C8: running the tool twice on identical, unchanged inputs with the same
output base (and deterministic enumeration, which the model has by
construction) produces identical contents, the filenames differing only in
the collision-avoidance suffix: the dump content does not depend on the
set of paths existing on disk, the second resolved path differs from the
first (which exists when the second run starts) and from every other
pre-existing path, and each resolved path is either the default name or a
`_<n>`-suffixed candidate of it. -/
theorem claim_C8 (existing : List String) (inputs : List InputDir)
    (base_path : String) :
    (runProgram existing inputs base_path).2
        = (runProgram (get_unique_output_filename existing base_path :: existing)
            inputs base_path).2 ∧
    get_unique_output_filename
        (get_unique_output_filename existing base_path :: existing) base_path
      ≠ get_unique_output_filename existing base_path ∧
    get_unique_output_filename
        (get_unique_output_filename existing base_path :: existing) base_path
      ∉ existing ∧
    (∀ ex : List String,
      get_unique_output_filename ex base_path = withDefaultExt base_path ∨
      ∃ n, 1 ≤ n ∧ get_unique_output_filename ex base_path
        = candName (splitext (withDefaultExt base_path)).1
            (splitext (withDefaultExt base_path)).2 n) := by
  have hnm := get_unique_not_mem
    (get_unique_output_filename existing base_path :: existing) base_path
  refine ⟨rfl, ?_, ?_, ?_⟩
  · intro h
    apply hnm
    rw [h]
    exact List.mem_cons_self _ _
  · intro h
    exact hnm (List.mem_cons_of_mem _ h)
  · intro ex
    by_cases h : withDefaultExt base_path ∈ ex
    · obtain ⟨n, hn, hr, _⟩ := get_unique_of_mem h
      exact Or.inr ⟨n, hn, hr⟩
    · exact Or.inl (get_unique_of_not_mem h)

theorem claim_C8_witness :
    get_unique_output_filename (get_unique_output_filename [] "out" :: []) "out"
      ≠ get_unique_output_filename [] "out" ∧
    (runProgram [] [] "out").2
      = (runProgram (get_unique_output_filename [] "out" :: []) [] "out").2 :=
  ⟨(claim_C8 [] [] "out").2.1, (claim_C8 [] [] "out").1⟩

/-- An ASCII byte decodes to its character, whatever follows. -/
theorem utf8DecodeWith_cons_ascii (repl : List Char) (c : Nat) (l : List Nat)
    (hc : c < 0x80) :
    utf8DecodeWith repl (c :: l) = Char.ofNat c :: utf8DecodeWith repl l := by
  rw [utf8DecodeWith.eq_def]
  simp [hc]

/-- An all-ASCII byte segment decodes to itself under any error policy. -/
theorem utf8_ascii_append (repl : List Char) (a rest : List Nat)
    (h : ∀ c ∈ a, c < 0x80) :
    utf8DecodeWith repl (a ++ rest)
      = a.map Char.ofNat ++ utf8DecodeWith repl rest := by
  induction a with
  | nil => simp
  | cons c cs ih =>
    have hc : c < 0x80 := h c (by simp)
    rw [List.cons_append, utf8DecodeWith_cons_ascii repl c (cs ++ rest) hc]
    simp only [List.map_cons, List.cons_append, List.cons.injEq, true_and]
    exact ih (fun x hx => h x (by simp [hx]))

/-- A byte that can never start a UTF-8 sequence is handed to the error
handler and the decoder resumes right after it. -/
theorem utf8_invalid_dropped (repl : List Char) (x : Nat) (rest : List Nat)
    (hx : 0xF5 ≤ x) :
    utf8DecodeWith repl (x :: rest) = repl ++ utf8DecodeWith repl rest := by
  have h1 : ¬ x < 0x80 := by omega
  have h2 : ¬ (0xC2 ≤ x ∧ x ≤ 0xDF) := by omega
  have h3 : ¬ (0xE0 ≤ x ∧ x ≤ 0xEF) := by omega
  have h4 : ¬ (0xF0 ≤ x ∧ x ≤ 0xF4) := by omega
  rw [utf8DecodeWith.eq_def]
  simp only [h1, h2, h3, h4, if_false]

/-- C5 counterexample: line 87 opens files with `errors='ignore'`, not
`errors='replace'`: for content bytes `48 69 FF` the writer emits `"Hi\n"`
— the undecodable byte is dropped, whereas substituting replacement
characters (as the claim states) would emit `"Hi�\n"`. -/
theorem claim_C5_counterexample :
    ¬ readFileOutput [0x48, 0x69, 0xFF]
        = readFileOutputReplaceClaim [0x48, 0x69, 0xFF] := by
  decide

/-- C5 (amended): when a file's bytes contain sequences that cannot be
decoded, the writer copies the file's text content by dropping the
undecodable bytes (`errors='ignore'`) rather than failing — the text-mode
read then applies universal-newline translation to the decoded text — and
appends a trailing newline: around an invalid byte, ASCII segments are
decoded to their characters, the invalid byte contributes nothing, and the
newline translation acts on the joined text exactly as `infile.read()`
returns it. -/
theorem claim_C5 (a b : List Nat) (x : Nat)
    (ha : ∀ c ∈ a, c < 0x80) (hb : ∀ c ∈ b, c < 0x80) (hx : 0xF5 ≤ x) :
    readFileOutput (a ++ x :: b)
      = String.mk (translateNewlines (a.map Char.ofNat ++ b.map Char.ofNat))
        ++ "\n" := by
  unfold readFileOutput
  rw [utf8_ascii_append [] a (x :: b) ha, utf8_invalid_dropped [] x b hx]
  have hb2 : utf8DecodeWith [] b = b.map Char.ofNat := by
    have h := utf8_ascii_append [] b [] hb
    rw [List.append_nil] at h
    rw [h, show utf8DecodeWith [] [] = [] from rfl, List.append_nil]
  rw [hb2, List.nil_append]

theorem claim_C5_witness :
    readFileOutput [72, 255, 33] = String.mk (translateNewlines ['H', '!']) ++ "\n" ∧
    readFileOutput [72, 255, 33] = "H!\n" ∧
    readFileOutput [65, 13, 255, 10, 66]
      = String.mk (translateNewlines ['A', '\r', '\n', 'B']) ++ "\n" ∧
    readFileOutput [65, 13, 255, 10, 66] = "A\nB\n" :=
  ⟨claim_C5 [72] [33] 255 (by decide) (by decide) (by decide),
    by decide,
    claim_C5 [65, 13] [10, 66] 255 (by decide) (by decide) (by decide),
    by decide⟩

/-- C3: for every file whose lowercase name ends in an allowed extension,
that no ignore mask excludes, located in a well-formed input tree below
directories that no ignore mask excludes, the run's records contain
exactly one entry for its header path (the input directory's basename
joined with the file's relative path), that entry carries the file's full
decoded content, and its rendering is exactly the banner — a blank line, a
separator line of exactly 80 `=` characters prefixed by `//`, a `// File:`
line with the path components joined by forward slashes, the separator
line again, a blank line — followed by the content and a trailing
newline. -/
theorem countP_eq_one_of_nodup_mem {α : Type} [DecidableEq α] {l : List α} {P : α}
    (hnd : l.Nodup) (h : P ∈ l) : l.countP (fun x => decide (x = P)) = 1 := by
  induction l with
  | nil => cases h
  | cons a as ih =>
    rw [List.countP_cons]
    rcases List.mem_cons.mp h with rfl | hmem
    · have hni : P ∉ as := (List.nodup_cons.mp hnd).1
      have hz : as.countP (fun x => decide (x = P)) = 0 := by
        rw [List.countP_eq_zero]
        intro x hx
        simp only [decide_eq_true_eq]
        exact fun he => hni (he ▸ hx)
      simp [hz]
    · have hne : a ≠ P := by
        rintro rfl
        exact (List.nodup_cons.mp hnd).1 hmem
      have := ih (List.nodup_cons.mp hnd).2 hmem
      simp [this, hne]

theorem claim_C3 (t : FSTree) (inp : String) (q : List String) (fname c : String)
    (hwf : wfTree t)
    (hat : fileDataAt t q fname = some (Except.ok c))
    (hdirs : ∀ d ∈ q, matches_any_mask d IGNORED_DIR_MASKS = false)
    (hmask : matches_any_mask fname IGNORED_FILE_MASKS = false)
    (hext : extAllowed fname = true) :
    (([inp] ++ q ++ [fname], Except.ok c) ∈ runItems [(inp, some t)]) ∧
    List.countP (fun it => decide (it.1 = [inp] ++ q ++ [fname]))
        (runItems [(inp, some t)]) = 1 ∧
    (∀ it ∈ runItems [(inp, some t)], it.1 = [inp] ++ q ++ [fname] →
      it = ([inp] ++ q ++ [fname], Except.ok c)) ∧
    renderItem ([inp] ++ q ++ [fname], Except.ok c)
      = ("\n" ++ ("//" ++ String.mk (List.replicate 80 '=')) ++ "\n"
          ++ "// File: " ++ String.intercalate "/" ([inp] ++ q ++ [fname]) ++ "\n"
          ++ ("//" ++ String.mk (List.replicate 80 '=')) ++ "\n" ++ "\n")
        ++ (c ++ "\n") := by
  have hru : runItems [(inp, some t)] = walkTree t [inp] := by
    simp [runItems, processInput]
  have hmem : ([inp] ++ q ++ [fname], Except.ok c) ∈ walkTree t [inp] :=
    mem_walkTree_of_fileDataAt t [inp] q fname (Except.ok c) hat hdirs hmask hext
  have hnd : ((walkTree t [inp]).map Prod.fst).Nodup := walkTree_paths_nodup t [inp] hwf
  have hmemP : [inp] ++ q ++ [fname] ∈ (walkTree t [inp]).map Prod.fst :=
    List.mem_map.mpr ⟨_, hmem, rfl⟩
  refine ⟨by rw [hru]; exact hmem, ?_, ?_, rfl⟩
  · rw [hru]
    have h1 : List.countP (fun x => decide (x = [inp] ++ q ++ [fname]))
        ((walkTree t [inp]).map Prod.fst) = 1 :=
      countP_eq_one_of_nodup_mem hnd hmemP
    rw [List.countP_map] at h1
    exact h1
  · rw [hru]
    intro it hit hfst
    exact List.inj_on_of_nodup_map hnd hit hmem (by rw [hfst])

theorem claim_C3_witness :
    wfTree (FSTree.node [] (DirList.cons "src"
        (FSTree.node [("Main.cs", Except.ok "hi")] DirList.nil) DirList.nil)) ∧
    (["ProjA", "src", "Main.cs"], Except.ok "hi")
      ∈ runItems [("ProjA", some (FSTree.node [] (DirList.cons "src"
          (FSTree.node [("Main.cs", Except.ok "hi")] DirList.nil) DirList.nil)))] ∧
    List.countP (fun it => decide (it.1 = ["ProjA", "src", "Main.cs"]))
        (runItems [("ProjA", some (FSTree.node [] (DirList.cons "src"
          (FSTree.node [("Main.cs", Except.ok "hi")] DirList.nil) DirList.nil)))])
      = 1 := by
  have hwf : wfTree (FSTree.node [] (DirList.cons "src"
      (FSTree.node [("Main.cs", Except.ok "hi")] DirList.nil) DirList.nil)) := by
    simp [wfTree, wfDirs, dirNames]
  have h := claim_C3 (FSTree.node [] (DirList.cons "src"
      (FSTree.node [("Main.cs", Except.ok "hi")] DirList.nil) DirList.nil))
    "ProjA" ["src"] "Main.cs" "hi" hwf (by decide) (by decide) (by decide) (by decide)
  exact ⟨hwf, h.1, h.2.1⟩

end SrcDump
